import Mathlib

/-!
Verification of the consistent-hashing placement core
(`consistent_hash_ring.py`, `rebalance.py`, `artifact_placement.py`).

The 64-bit hash primitive (`xxhash.xxh3_64_intdigest` behind `h64`) is
abstracted as a function `H : String → Nat → Nat` taking the string to hash
and the seed; every property proved here holds for an arbitrary such
function.  UTF-8 encoding of the key is injective, so hashing the string
directly is equivalent to hashing its byte encoding.

Python's `bisect.bisect_left` / `bisect.bisect` are binary searches whose
documented result on a sorted list is the leftmost / rightmost insertion
point; they are modelled extensionally by those insertion points (the length
of the maximal prefix of elements `< x`, resp. `≤ x`).  The ring keeps its
token list sorted, so every call site satisfies the sortedness precondition.

Python dicts are modelled as association lists in insertion order
(assignment to a fresh key appends; assignment to an existing key updates in
place; `pop` removes).  The unbounded `while` loop in `get_nodes_for_key` is
modelled with explicit fuel: a result of `none` means the loop has not
exited within `fuel` iterations (the loop has no exit other than its
condition, so `none` for every fuel is non-termination).
-/

/-- `Node` (frozen dataclass): immutable node record.  Python's unbounded
`int` weight is an `Int` (defaults in the source: `weight=1`, `zone=None`,
`labels=None`). -/
structure Node where
  id : String
  weight : Int
  zone : Option String
  labels : Option (List (String × String))
deriving Repr, DecidableEq

/-- `ConsistentHasher`'s mutable state.  `_lock` (a `threading.RLock`) has no
data content and is omitted; all modelled operations are sequential. -/
structure ConsistentHasher where
  _seed : Nat
  _vn_per_weight : Nat
  _ring : List (Nat × Node)
  _sorted_tokens : List Nat
  _nodes : List (String × Node)
deriving Repr, DecidableEq

/-- `ConsistentHasher.__init__(virtual_nodes_per_weight, seed)` (source
defaults 128 and 0): empty ring, `virtual_nodes_per_weight` clamped to ≥ 1. -/
def ConsistentHasher.init (virtual_nodes_per_weight : Nat) (seed : Nat) : ConsistentHasher :=
  { _seed := seed
    _vn_per_weight := max 1 virtual_nodes_per_weight
    _ring := []
    _sorted_tokens := []
    _nodes := [] }

/-- `bisect.bisect_left(l, x)` on a sorted list: the leftmost insertion
point, i.e. the length of the maximal prefix of elements `< x`. -/
def bisect_left (l : List Nat) (x : Nat) : Nat :=
  (l.takeWhile (fun t => t < x)).length

/-- `bisect.bisect(l, x)` (= `bisect_right`) on a sorted list: the rightmost
insertion point, i.e. the length of the maximal prefix of elements `≤ x`. -/
def bisect_right (l : List Nat) (x : Nat) : Nat :=
  (l.takeWhile (fun t => t ≤ x)).length

/-- `ConsistentHasher._vn_count`: `self._vn_per_weight * max(1, node.weight)`.
The result of Python's `max(1, ·)` is a positive `int`, hence a `Nat`. -/
def ConsistentHasher.vn_count (r : ConsistentHasher) (node : Node) : Nat :=
  r._vn_per_weight * (max 1 node.weight).toNat

/-- `ConsistentHasher._token_for_vn`: hash of `f"{node_id}#{replica_idx}"`
with the ring's seed. -/
def ConsistentHasher.token_for_vn (H : String → Nat → Nat) (r : ConsistentHasher)
    (node_id : String) (replica_idx : Nat) : Nat :=
  H (node_id ++ "#" ++ toString replica_idx) r._seed

/-- `ConsistentHasher._insert_token`: insert `token` at the `bisect_left`
position of the sorted token list, and `(token, node)` at the same position
of the ring.  `list.insert(idx, x)` is `take idx ++ [x] ++ drop idx`. -/
def ConsistentHasher.insert_token (r : ConsistentHasher) (token : Nat) (node : Node) :
    ConsistentHasher :=
  let idx := bisect_left r._sorted_tokens token
  { r with
    _sorted_tokens := r._sorted_tokens.take idx ++ token :: r._sorted_tokens.drop idx
    _ring := r._ring.take idx ++ (token, node) :: r._ring.drop idx }

/-- `ConsistentHasher.add_node(node_id, weight=1, zone=None)`.  The raised
`ValueError` is the `Option String` on the left (the state is returned
unchanged in that case, exactly as in the source, where the check precedes
every mutation).  On success the node is recorded in the id-map and
`_vn_count(node)` tokens are inserted. -/
def ConsistentHasher.add_node (H : String → Nat → Nat) (r : ConsistentHasher)
    (node_id : String) (weight : Int) (zone : Option String) :
    Option String × ConsistentHasher :=
  let node : Node := { id := node_id, weight := weight, zone := zone, labels := none }
  if (r._nodes.lookup node.id).isSome then
    (some ("Node " ++ node.id ++ " already exists"), r)
  else
    let r1 : ConsistentHasher := { r with _nodes := r._nodes ++ [(node.id, node)] }
    let vn := r.vn_count node
    (none, (List.range vn).foldl
      (fun acc i => acc.insert_token (acc.token_for_vn H node.id i) node) r1)

/-- `ConsistentHasher.remove_node(node_id)`: no-op if unknown; otherwise pop
the id from the map, filter the node's entries out of the ring, re-sort by
token (Python's `sorted` with `key=lambda x: x[0]`, a stable sort — modelled
by insertion sort, which is also stable and therefore computes the same
list) and rebuild the token list from the ring. -/
def ConsistentHasher.remove_node (r : ConsistentHasher) (node_id : String) : ConsistentHasher :=
  if (r._nodes.lookup node_id).isSome then
    let new_ring := (r._ring.filter (fun e => e.2.id != node_id)).insertionSort
      (fun a b => a.1 ≤ b.1)
    { r with
      _nodes := r._nodes.filter (fun p => p.1 != node_id)
      _ring := new_ring
      _sorted_tokens := new_ring.map (fun e => e.1) }
  else r

/-- `ConsistentHasher.get_node(key)`: `None` on an empty ring, else the id of
the ring entry at index `bisect(sorted_tokens, hash) % len(sorted_tokens)`.
The source indexes `self._ring[idx]` unconditionally; the ring invariant
makes `idx` in range, so the `Option`-indexing never returns `none` there. -/
def ConsistentHasher.get_node (H : String → Nat → Nat) (r : ConsistentHasher)
    (key : String) : Option String :=
  if r._ring.isEmpty then none
  else
    let tok := H key r._seed
    let idx := bisect_right r._sorted_tokens tok % r._sorted_tokens.length
    (r._ring[idx]?).map (fun e => e.2.id)

/-- The inner `while len(out) < replicas and n > 0` loop of
`get_nodes_for_key`, walking clockwise from position `i`.  The source's
`seen` set always holds exactly the elements of `out`, so membership is
tested on `out` directly.  `fuel` bounds the unbounded loop: `none` means
the loop has not exited within `fuel` iterations. -/
def walk_loop (ring : List (Nat × Node)) (n replicas : Nat) :
    Nat → Nat → List String → Option (List String)
  | 0, _, out => if out.length < replicas ∧ 0 < n then none else some out
  | fuel + 1, i, out =>
    if out.length < replicas ∧ 0 < n then
      let nid := ((ring[i % n]?).map (fun e => e.2.id)).getD ""
      walk_loop ring n replicas fuel (i + 1) (if nid ∈ out then out else out ++ [nid])
    else some out

/-- The outer `for s in starts` loop of `get_nodes_for_key`: run the walk
from each start, breaking as soon as `replicas` ids are collected. -/
def probe_loop (ring : List (Nat × Node)) (n replicas fuel : Nat) :
    List Nat → List String → Option (List String)
  | [], out => some out
  | s :: rest, out =>
    match walk_loop ring n replicas fuel s out with
    | none => none
    | some out1 =>
      if replicas ≤ out1.length then some out1
      else probe_loop ring n replicas fuel rest out1

/-- `ConsistentHasher.get_nodes_for_key(key, replicas=1, multiprobe=1)`:
empty list on an empty ring; otherwise compute `multiprobe` start positions
(upper bound of `hash(key + "|" + p)` modulo `n`), sort them ascending, and
collect distinct node ids with `probe_loop`.  `none` models the source loop
not terminating within `fuel` iterations. -/
def ConsistentHasher.get_nodes_for_key (H : String → Nat → Nat) (r : ConsistentHasher)
    (key : String) (replicas multiprobe fuel : Nat) : Option (List String) :=
  if r._ring.isEmpty then some []
  else
    let n := r._sorted_tokens.length
    let starts := ((List.range multiprobe).map
      (fun p => bisect_right r._sorted_tokens (H (key ++ "|" ++ toString p) r._seed) % n)).insertionSort
      (fun a b => a ≤ b)
    probe_loop r._ring n replicas fuel starts []

/-- `ConsistentHasher.nodes()`: the id-map's keys in insertion order. -/
def ConsistentHasher.nodes (r : ConsistentHasher) : List String :=
  r._nodes.map (fun p => p.1)

/-- `ConsistentHasher.size()`: number of physical nodes. -/
def ConsistentHasher.size (r : ConsistentHasher) : Nat :=
  r._nodes.length

/-- `ConsistentHasher.dump_tokens()`: the `(token, node_id)` layout. -/
def ConsistentHasher.dump_tokens (r : ConsistentHasher) : List (Nat × String) :=
  r._ring.map (fun e => (e.1, e.2.id))

/-- `ConsistentHasher.clone()`: `copy.deepcopy(self)`.  On the data model a
deep copy is the value itself; the copy shares no mutable state with the
original because the model is pure.  (The source method as written also
deep-copies `self._lock`, a `threading.RLock`, which `copy.deepcopy`
rejects at runtime — see the results for the clone claim.) -/
def ConsistentHasher.clone (r : ConsistentHasher) : ConsistentHasher := r

/-- Assignment `m[k] = v` on a Python dict modelled as an association list:
updates the existing entry in place when `k` is already a key, otherwise
appends `(k, v)`. -/
def dict_insert {α : Type} (m : List (String × α)) (k : String) (v : α) :
    List (String × α) :=
  if m.any (fun p => p.1 == k) then
    m.map (fun p => if p.1 == k then (k, v) else p)
  else m ++ [(k, v)]

/-- `RebalancePlanner.plan_moved(keys, ring_before, ring_after)`: for each
key in order, compare the owners under the two rings and record
`key ↦ (from, to)` when they differ (`Option String` inequality, absence
being its own value). -/
def RebalancePlanner.plan_moved (H : String → Nat → Nat) (keys : List String)
    (ring_before ring_after : ConsistentHasher) :
    List (String × (Option String × Option String)) :=
  keys.foldl (fun moved k =>
    let b := ring_before.get_node H k
    let a := ring_after.get_node H k
    if b ≠ a then dict_insert moved k (b, a) else moved) []

/-- `ArtifactHost`: a filesystem directory, modelled as a map from file path
to blob contents (a blob is a byte list). -/
structure ArtifactHost where
  host_id : String
  base_dir : String
  store : List (String × List Nat)
deriving Repr, DecidableEq

/-- `ArtifactHost.path_for`: `os.path.join(base_dir, f"{safe}.bin")` with
`":"` sanitized to `"_"`. -/
def ArtifactHost.path_for (h : ArtifactHost) (artifact_key : String) : String :=
  h.base_dir ++ "/" ++ (artifact_key.replace ":" "_") ++ ".bin"

/-- `ArtifactHost.put`: write (create or overwrite) the file for the key. -/
def ArtifactHost.put (h : ArtifactHost) (artifact_key : String) (data : List Nat) :
    ArtifactHost :=
  { h with store := dict_insert h.store (h.path_for artifact_key) data }

/-- `ArtifactHost.get`: contents of the file for the key, `none` if the file
does not exist. -/
def ArtifactHost.get (h : ArtifactHost) (artifact_key : String) : Option (List Nat) :=
  h.store.lookup (h.path_for artifact_key)

/-- `ArtifactDistributor`: a ring plus a host map and a replication factor
(source default 2). -/
structure ArtifactDistributor where
  ring : ConsistentHasher
  replication : Nat
  _hosts : List (String × ArtifactHost)
deriving Repr, DecidableEq

/-- `ArtifactDistributor.placement_with_ring(artifact_key, ring)`: project
`ring.get_nodes_for_key(key, replicas=replication, multiprobe=3)` through
the host map, dropping unknown ids (the source's
`[self._hosts.get(nid) for nid in node_ids if nid in self._hosts]`). -/
def ArtifactDistributor.placement_with_ring (H : String → Nat → Nat)
    (d : ArtifactDistributor) (artifact_key : String) (ring : ConsistentHasher)
    (fuel : Nat) : Option (List ArtifactHost) :=
  (ring.get_nodes_for_key H artifact_key d.replication 3 fuel).map
    (fun node_ids => node_ids.filterMap (fun nid => d._hosts.lookup nid))

/-- Modelled from the spec: `ArtifactRebalancer.execute` calls
`dist.distribute(key, blob)` but no such method is defined on
`ArtifactDistributor` in the source.  Per the spec, implementers "should
expose `distribute(key, blob)` that writes the blob to every host in the
current placement"; the current placement is
`get_nodes_for_key(key, replicas=replication, multiprobe=3)` against the
distributor's own (post-change) ring, projected through the host map. -/
def ArtifactDistributor.distribute (H : String → Nat → Nat)
    (d : ArtifactDistributor) (artifact_key : String) (blob : List Nat)
    (fuel : Nat) : Option ArtifactDistributor :=
  (d.ring.get_nodes_for_key H artifact_key d.replication 3 fuel).map
    (fun node_ids =>
      { d with _hosts := node_ids.foldl (fun hs nid =>
          match hs.lookup nid with
          | some h => dict_insert hs nid (h.put artifact_key blob)
          | none => hs) d._hosts })

/-- The read part of `ArtifactRebalancer.execute`'s per-key loop: try each
old host in order, the first non-null `get` wins (`None` entries cannot
occur: the placement list already filters unknown ids). -/
def first_blob (hosts : List ArtifactHost) (artifact_key : String) : Option (List Nat) :=
  match hosts with
  | [] => none
  | h :: rest =>
    match h.get artifact_key with
    | some blob => some blob
    | none => first_blob rest artifact_key

/-- `ArtifactRebalancer.execute(moved_artifacts, ring_before)`: for each
planned key in order, read from the old placement (first non-null wins) and,
if a blob was obtained, `distribute` it; keys absent everywhere are skipped.
`none` propagates a non-terminating ring lookup (fuel exhaustion). -/
def ArtifactRebalancer.execute (H : String → Nat → Nat) (d : ArtifactDistributor)
    (moved_artifacts : List (String × (Option String × Option String)))
    (ring_before : ConsistentHasher) (fuel : Nat) : Option ArtifactDistributor :=
  match moved_artifacts with
  | [] => some d
  | (key, _) :: rest =>
    match d.placement_with_ring H key ring_before fuel with
    | none => none
    | some old_hosts =>
      match first_blob old_hosts key with
      | none => ArtifactRebalancer.execute H d rest ring_before fuel
      | some blob =>
        match d.distribute H key blob fuel with
        | none => none
        | some d2 => ArtifactRebalancer.execute H d2 rest ring_before fuel

/-- One mutation of a live ring, for stating clone stability. -/
inductive RingOp where
  | add (node_id : String) (weight : Int) (zone : Option String)
  | remove (node_id : String)
deriving Repr, DecidableEq

/-- Apply a sequence of mutations to a ring (`add_node` discarding the
error, exactly as a caller that catches the exception would observe). -/
def apply_ops (H : String → Nat → Nat) (r : ConsistentHasher) :
    List RingOp → ConsistentHasher
  | [] => r
  | RingOp.add node_id weight zone :: rest =>
      apply_ops H (r.add_node H node_id weight zone).2 rest
  | RingOp.remove node_id :: rest =>
      apply_ops H (r.remove_node node_id) rest

/-- Building a ring from scratch by a sequence of `add_node` calls with
fixed configuration, as in the determinism property. -/
def build_ring (H : String → Nat → Nat) (virtual_nodes_per_weight seed : Nat)
    (ops : List (String × Int)) : ConsistentHasher :=
  ops.foldl (fun r p => (r.add_node H p.1 p.2 none).2)
    (ConsistentHasher.init virtual_nodes_per_weight seed)

/-- The ring invariants (spec §3): the token list mirrors the ring's tokens,
is sorted ascending, the id-map's keys are unique and each maps to a node
record bearing that id, every node contributes exactly `vn_count` ring
entries, and every ring entry's node is present in the id-map. -/
def ConsistentHasher.Wf (r : ConsistentHasher) : Prop :=
  r._sorted_tokens = r._ring.map (fun e => e.1)
  ∧ r._sorted_tokens.Sorted (· ≤ ·)
  ∧ (r._nodes.map (fun p => p.1)).Nodup
  ∧ (∀ p ∈ r._nodes, p.2.id = p.1 ∧
      r._ring.countP (fun e => e.2.id == p.1) = r.vn_count p.2)
  ∧ (∀ e ∈ r._ring, (r._nodes.lookup e.2.id).isSome)

instance (r : ConsistentHasher) : Decidable r.Wf := by
  unfold ConsistentHasher.Wf
  infer_instance

/-- The owner described by the spec's words: "the owner of the first token
strictly greater than the key's hash, wrapping around" (the wrap lands on
the first ring entry).  Written from the spec, to be compared with
`get_node` as translated from the source. -/
def first_token_above (H : String → Nat → Nat) (r : ConsistentHasher)
    (key : String) : Option String :=
  match r._ring.find? (fun e => H key r._seed < e.1) with
  | some e => some e.2.id
  | none => r._ring.head?.map (fun e => e.2.id)

/-! ### Helper lemmas -/

lemma insert_at_takeWhile_length_eq_orderedInsert (l : List Nat) (x : Nat) :
    l.take (bisect_left l x) ++ x :: l.drop (bisect_left l x) =
      List.orderedInsert (· ≤ ·) x l := by
  induction l with
  | nil => simp [bisect_left, List.orderedInsert]
  | cons b t ih =>
    by_cases h : b < x
    · have hx : ¬ x ≤ b := by omega
      simp only [bisect_left, List.takeWhile_cons, decide_eq_true h, if_pos rfl]
      simp only [List.length_cons, List.take_succ_cons, List.drop_succ_cons,
        List.cons_append, List.orderedInsert, if_neg hx]
      exact congrArg (b :: ·) ih
    · have hx : x ≤ b := by omega
      simp only [bisect_left, List.takeWhile_cons]
      simp [h, List.orderedInsert, hx]

lemma bisect_left_insert_sorted {l : List Nat} (x : Nat)
    (hs : l.Sorted (· ≤ ·)) :
    (l.take (bisect_left l x) ++ x :: l.drop (bisect_left l x)).Sorted (· ≤ ·) := by
  rw [insert_at_takeWhile_length_eq_orderedInsert]
  exact hs.orderedInsert x l

lemma insert_at_perm {α : Type} (l : List α) (x : α) (idx : Nat) :
    List.Perm (l.take idx ++ x :: l.drop idx) (x :: l) := by
  have h1 : List.Perm (l.take idx ++ x :: l.drop idx)
      (x :: (l.take idx ++ l.drop idx)) := List.perm_middle
  rw [List.take_append_drop] at h1
  exact h1

lemma insert_token_seed (r : ConsistentHasher) (t : Nat) (n : Node) :
    (r.insert_token t n)._seed = r._seed := rfl

lemma insert_token_vnpw (r : ConsistentHasher) (t : Nat) (n : Node) :
    (r.insert_token t n)._vn_per_weight = r._vn_per_weight := rfl

lemma insert_token_nodes (r : ConsistentHasher) (t : Nat) (n : Node) :
    (r.insert_token t n)._nodes = r._nodes := rfl

lemma insert_token_ring_perm (r : ConsistentHasher) (t : Nat) (n : Node) :
    List.Perm (r.insert_token t n)._ring ((t, n) :: r._ring) :=
  insert_at_perm _ _ _

lemma insert_token_parallel (r : ConsistentHasher) (t : Nat) (n : Node)
    (hpar : r._sorted_tokens = r._ring.map (fun e => e.1)) :
    (r.insert_token t n)._sorted_tokens =
      (r.insert_token t n)._ring.map (fun e => e.1) := by
  show r._sorted_tokens.take (bisect_left r._sorted_tokens t) ++
      t :: r._sorted_tokens.drop (bisect_left r._sorted_tokens t) =
    (r._ring.take (bisect_left r._sorted_tokens t) ++
      (t, n) :: r._ring.drop (bisect_left r._sorted_tokens t)).map (fun e => e.1)
  rw [List.map_append, List.map_take, List.map_cons, List.map_drop, ← hpar]

lemma insert_token_sorted (r : ConsistentHasher) (t : Nat) (n : Node)
    (hs : r._sorted_tokens.Sorted (· ≤ ·)) :
    (r.insert_token t n)._sorted_tokens.Sorted (· ≤ ·) :=
  bisect_left_insert_sorted t hs

lemma getElem?_takeWhile_length {α : Type} (l : List α) (p q : α → Bool)
    (hpq : ∀ a, q a = !p a) :
    l[(l.takeWhile p).length]? = l.find? q := by
  induction l with
  | nil => simp
  | cons a t ih =>
    by_cases h : p a
    · have hq : q a = false := by rw [hpq]; simp [h]
      simp [List.takeWhile_cons, h, List.find?_cons, hq, ih]
    · have hq : q a = true := by rw [hpq]; simp [h]
      simp [List.takeWhile_cons, h, List.find?_cons, hq]

lemma lookup_none_iff_not_key {α : Type} (m : List (String × α)) (k : String) :
    m.lookup k = none ↔ k ∉ m.map (fun p => p.1) := by
  rw [List.lookup_eq_none_iff]
  simp only [bne_iff_ne, ne_eq, List.mem_map]
  constructor
  · rintro h ⟨p, hp, rfl⟩
    exact h p hp rfl
  · intro h p hp hk
    exact h ⟨p, hp, hk.symm⟩

lemma lookup_filter_ne {α : Type} (m : List (String × α)) (k bad : String)
    (hk : k ≠ bad) :
    (m.filter (fun p => p.1 != bad)).lookup k = m.lookup k := by
  induction m with
  | nil => simp
  | cons p m ih =>
    obtain ⟨a, v⟩ := p
    by_cases h : a = bad
    · subst h
      have h1 : (k == a) = false := by simp [hk]
      simp only [List.filter_cons, bne_self_eq_false, Bool.false_eq_true, if_false,
        List.lookup_cons, h1, ih]
    · have h1 : (a != bad) = true := by simp [h]
      rw [List.filter_cons]
      simp only [h1, if_true]
      rw [List.lookup_cons, List.lookup_cons]
      cases hka : (k == a) <;> simp [ih]

lemma lookup_filter_self {α : Type} (m : List (String × α)) (bad : String) :
    (m.filter (fun p => p.1 != bad)).lookup bad = none := by
  induction m with
  | nil => simp
  | cons p m ih =>
    obtain ⟨a, v⟩ := p
    by_cases h : a = bad
    · subst h
      simp only [List.filter_cons, bne_self_eq_false, Bool.false_eq_true, if_false, ih]
    · have h1 : (a != bad) = true := by simp [h]
      have h2 : (bad == a) = false := by simp [Ne.symm h]
      rw [List.filter_cons]
      simp only [h1, if_true]
      rw [List.lookup_cons]
      simp [h2, ih]

/-- On a state whose token list mirrors the ring (first invariant),
`get_node` returns exactly the spec's owner: the first ring entry whose
token strictly exceeds the key's hash, wrapping to the first entry. -/
lemma get_node_eq_first_token_above (H : String → Nat → Nat)
    (r : ConsistentHasher) (key : String)
    (hpar : r._sorted_tokens = r._ring.map (fun e => e.1)) :
    r.get_node H key = first_token_above H r key := by
  by_cases hemp : r._ring = []
  · simp [ConsistentHasher.get_node, first_token_above, hemp]
  · have hne : r._ring.isEmpty = false := by
      simpa [List.isEmpty_iff] using hemp
    set tok := H key r._seed with htok
    have hlen : r._sorted_tokens.length = r._ring.length := by
      rw [hpar, List.length_map]
    have hbr : bisect_right r._sorted_tokens tok =
        (r._ring.takeWhile (fun e => e.1 ≤ tok)).length := by
      rw [bisect_right, hpar, List.takeWhile_map, List.length_map]
      rfl
    have hkey : ∀ e : Nat × Node, (decide (tok < e.1)) = !(decide (e.1 ≤ tok)) := by
      intro e
      by_cases h : e.1 ≤ tok
      · simp [h, Nat.not_lt.mpr h]
      · simp [h, Nat.lt_of_not_le h]
    have hfind := getElem?_takeWhile_length r._ring
      (fun e => e.1 ≤ tok) (fun e => tok < e.1) hkey
    rcases hf : r._ring.find? (fun e => tok < e.1) with _ | e
    · -- no token exceeds the hash: the takeWhile prefix is the whole ring,
      -- the index wraps to 0, the owner is the first entry
      rw [hf] at hfind
      have hge := List.getElem?_eq_none_iff.mp hfind
      have hle : (r._ring.takeWhile (fun e => e.1 ≤ tok)).length ≤ r._ring.length :=
        (List.takeWhile_prefix _).length_le
      have heq : (r._ring.takeWhile (fun e => e.1 ≤ tok)).length = r._ring.length :=
        Nat.le_antisymm hle hge
      have hpos : 0 < r._sorted_tokens.length := by
        rw [hlen]
        exact List.length_pos.mpr hemp
      simp only [ConsistentHasher.get_node, hne, Bool.false_eq_true, if_false,
        first_token_above, hf, ← htok, hbr, heq, ← hlen, Nat.mod_self]
      rw [← List.head?_eq_getElem?]
    · -- some token exceeds the hash: the index is in range and picks the
      -- first such entry
      rw [hf] at hfind
      have hlt : (r._ring.takeWhile (fun e => e.1 ≤ tok)).length < r._ring.length := by
        rcases List.getElem?_eq_some_iff.mp hfind with ⟨h, _⟩
        exact h
      simp only [ConsistentHasher.get_node, hne, Bool.false_eq_true, if_false,
        first_token_above, hf, ← htok, hbr]
      rw [Nat.mod_eq_of_lt (by rw [hlen]; exact hlt), hfind]
      rfl

/-- The token-insertion loop of `add_node`: it leaves seed, weight
configuration and id-map alone, keeps the two sorted structures parallel and
sorted, and the resulting ring is, up to order, the inserted `(token, node)`
pairs on top of the old ring. -/
lemma foldl_insert_token (H : String → Nat → Nat) (node : Node) :
    ∀ (idxs : List Nat) (acc : ConsistentHasher),
      acc._sorted_tokens = acc._ring.map (fun e => e.1) →
      acc._sorted_tokens.Sorted (· ≤ ·) →
      (idxs.foldl (fun a i => a.insert_token (a.token_for_vn H node.id i) node)
          acc)._seed = acc._seed ∧
      (idxs.foldl (fun a i => a.insert_token (a.token_for_vn H node.id i) node)
          acc)._vn_per_weight = acc._vn_per_weight ∧
      (idxs.foldl (fun a i => a.insert_token (a.token_for_vn H node.id i) node)
          acc)._nodes = acc._nodes ∧
      (idxs.foldl (fun a i => a.insert_token (a.token_for_vn H node.id i) node)
          acc)._sorted_tokens =
        (idxs.foldl (fun a i => a.insert_token (a.token_for_vn H node.id i) node)
          acc)._ring.map (fun e => e.1) ∧
      (idxs.foldl (fun a i => a.insert_token (a.token_for_vn H node.id i) node)
          acc)._sorted_tokens.Sorted (· ≤ ·) ∧
      List.Perm
        (idxs.foldl (fun a i => a.insert_token (a.token_for_vn H node.id i) node)
          acc)._ring
        ((idxs.map (fun i => (acc.token_for_vn H node.id i, node))) ++ acc._ring) := by
  intro idxs
  induction idxs with
  | nil =>
    intro acc hpar hs
    exact ⟨rfl, rfl, rfl, hpar, hs, by simp⟩
  | cons i idxs ih =>
    intro acc hpar hs
    set acc1 := acc.insert_token (acc.token_for_vn H node.id i) node with hacc1
    have hpar1 : acc1._sorted_tokens = acc1._ring.map (fun e => e.1) :=
      insert_token_parallel acc _ node hpar
    have hs1 : acc1._sorted_tokens.Sorted (· ≤ ·) :=
      insert_token_sorted acc _ node hs
    obtain ⟨e1, e2, e3, e4, e5, e6⟩ := ih acc1 hpar1 hs1
    have htok : ∀ j : Nat, acc1.token_for_vn H node.id j = acc.token_for_vn H node.id j :=
      fun _ => rfl
    refine ⟨?_, ?_, ?_, ?_, ?_, ?_⟩
    · simpa [List.foldl_cons, htok] using e1
    · simpa [List.foldl_cons, htok] using e2
    · simp only [List.foldl_cons, ← hacc1]
      rw [e3]
      exact insert_token_nodes acc _ node
    · simpa [List.foldl_cons] using e4
    · simpa [List.foldl_cons] using e5
    · simp only [List.foldl_cons, ← hacc1, List.map_cons, List.cons_append]
      have step1 : List.Perm
          ((idxs.map (fun j => (acc1.token_for_vn H node.id j, node))) ++ acc1._ring)
          ((idxs.map (fun j => (acc.token_for_vn H node.id j, node))) ++
            ((acc.token_for_vn H node.id i, node) :: acc._ring)) := by
        simp only [htok]
        exact List.Perm.append_left _ (insert_token_ring_perm acc _ node)
      have step2 : List.Perm
          ((idxs.map (fun j => (acc.token_for_vn H node.id j, node))) ++
            ((acc.token_for_vn H node.id i, node) :: acc._ring))
          ((acc.token_for_vn H node.id i, node) ::
            ((idxs.map (fun j => (acc.token_for_vn H node.id j, node))) ++ acc._ring)) :=
        List.perm_middle
      exact (e6.trans step1).trans step2

/-- `add_node` on a fresh id: no error, the node is appended to the id-map,
configuration is unchanged, the structures stay parallel and sorted, and the
new ring is, up to order, the node's `vn_count` tokens on top of the old
ring. -/
lemma add_node_success (H : String → Nat → Nat) (r : ConsistentHasher)
    (node_id : String) (weight : Int) (zone : Option String)
    (hdup : r._nodes.lookup node_id = none)
    (hpar : r._sorted_tokens = r._ring.map (fun e => e.1))
    (hs : r._sorted_tokens.Sorted (· ≤ ·)) :
    (r.add_node H node_id weight zone).1 = none ∧
    (r.add_node H node_id weight zone).2._seed = r._seed ∧
    (r.add_node H node_id weight zone).2._vn_per_weight = r._vn_per_weight ∧
    (r.add_node H node_id weight zone).2._nodes =
      r._nodes ++ [(node_id, { id := node_id, weight := weight, zone := zone, labels := none })] ∧
    (r.add_node H node_id weight zone).2._sorted_tokens =
      (r.add_node H node_id weight zone).2._ring.map (fun e => e.1) ∧
    (r.add_node H node_id weight zone).2._sorted_tokens.Sorted (· ≤ ·) ∧
    List.Perm (r.add_node H node_id weight zone).2._ring
      (((List.range (r.vn_count { id := node_id, weight := weight, zone := zone, labels := none })).map
          (fun i => (r.token_for_vn H node_id i,
            ({ id := node_id, weight := weight, zone := zone, labels := none } : Node)))) ++ r._ring) := by
  have hnone : (r._nodes.lookup node_id).isSome = false := by
    rw [hdup]; rfl
  set node : Node := { id := node_id, weight := weight, zone := zone, labels := none } with hnode
  have hunfold : r.add_node H node_id weight zone =
      (none, (List.range (r.vn_count node)).foldl
        (fun acc i => acc.insert_token (acc.token_for_vn H node_id i) node)
        { r with _nodes := r._nodes ++ [(node_id, node)] }) := by
    unfold ConsistentHasher.add_node
    rw [if_neg (by simp [hnone])]
  set r1 : ConsistentHasher := { r with _nodes := r._nodes ++ [(node_id, node)] } with hr1
  have hpar1 : r1._sorted_tokens = r1._ring.map (fun e => e.1) := hpar
  have hs1 : r1._sorted_tokens.Sorted (· ≤ ·) := hs
  obtain ⟨e1, e2, e3, e4, e5, e6⟩ :=
    foldl_insert_token H node (List.range (r.vn_count node)) r1 hpar1 hs1
  rw [hunfold]
  refine ⟨rfl, e1, e2, by rw [e3], e4, e5, ?_⟩
  have : ∀ j : Nat, r1.token_for_vn H node.id j = r.token_for_vn H node_id j := fun _ => rfl
  simpa [this] using e6

lemma vn_count_congr (a r : ConsistentHasher) (x : Node)
    (h : a._vn_per_weight = r._vn_per_weight) : a.vn_count x = r.vn_count x := by
  simp [ConsistentHasher.vn_count, h]

lemma count_tokens_map (node : Node) (idxs : List Nat) (f : Nat → Nat) (nid : String) :
    (idxs.map (fun i => (f i, node))).countP (fun e => e.2.id == nid) =
      if node.id = nid then idxs.length else 0 := by
  rw [List.countP_map]
  by_cases h : node.id = nid
  · simp [Function.comp_def, h, List.countP_true]
  · have : (node.id == nid) = false := by simp [h]
    simp [Function.comp_def, this, h]

lemma wf_init (v s : Nat) : (ConsistentHasher.init v s).Wf := by
  refine ⟨rfl, by simp [ConsistentHasher.init], by simp [ConsistentHasher.init],
    ?_, ?_⟩ <;> simp [ConsistentHasher.init]

lemma wf_add_node (H : String → Nat → Nat) (r : ConsistentHasher)
    (nid : String) (w : Int) (z : Option String) (hwf : r.Wf) :
    (r.add_node H nid w z).2.Wf := by
  obtain ⟨hpar, hs, hnd, hcnt, hmem⟩ := hwf
  by_cases hdup : (r._nodes.lookup nid).isSome
  · have : r.add_node H nid w z =
        (some ("Node " ++ nid ++ " already exists"), r) := by
      unfold ConsistentHasher.add_node
      rw [if_pos hdup]
    rw [this]
    exact ⟨hpar, hs, hnd, hcnt, hmem⟩
  · have hdup' : r._nodes.lookup nid = none := Option.not_isSome_iff_eq_none.mp hdup
    have hnotkey : nid ∉ r._nodes.map (fun p => p.1) :=
      (lookup_none_iff_not_key r._nodes nid).mp hdup'
    obtain ⟨_, e2, e3, e4, e5, e6, e7⟩ :=
      add_node_success H r nid w z hdup' hpar hs
    set node : Node := { id := nid, weight := w, zone := z, labels := none } with hnode
    set a := (r.add_node H nid w z).2 with ha
    refine ⟨e5, e6, ?_, ?_, ?_⟩
    · rw [e4]
      simp only [List.map_append, List.map_cons, List.map_nil]
      rw [List.nodup_append]
      exact ⟨hnd, List.nodup_singleton nid, by simpa using hnotkey⟩
    · intro p hp
      rw [e4, List.mem_append] at hp
      have hacount : ∀ s : String, a._ring.countP (fun e => e.2.id == s) =
          ((List.range (r.vn_count node)).map
            (fun i => (r.token_for_vn H nid i, node))).countP (fun e => e.2.id == s) +
          r._ring.countP (fun e => e.2.id == s) := by
        intro s
        rw [e7.countP_eq, List.countP_append]
      rcases hp with hp | hp
      · obtain ⟨hid, hc⟩ := hcnt p hp
        have hpk : p.1 ∈ r._nodes.map (fun q => q.1) := List.mem_map_of_mem _ hp
        have hne : node.id ≠ p.1 := by
          intro hcontr
          have hq : nid = p.1 := hcontr
          exact hnotkey (by rw [hq]; exact hpk)
        refine ⟨hid, ?_⟩
        rw [hacount, count_tokens_map, if_neg hne, Nat.zero_add, hc]
        exact (vn_count_congr a r p.2 e3).symm
      · simp only [List.mem_singleton] at hp
        subst hp
        refine ⟨rfl, ?_⟩
        have hzero : r._ring.countP (fun e => e.2.id == nid) = 0 := by
          rw [List.countP_eq_zero]
          intro e he hc
          have hsome := hmem e he
          rw [show e.2.id = nid by simpa using hc, hdup'] at hsome
          exact Bool.false_ne_true hsome
        rw [hacount, count_tokens_map, if_pos rfl, List.length_range, hzero,
          Nat.add_zero]
        exact (vn_count_congr a r node e3).symm
    · intro e he
      rw [e4]
      have hmem' := (e7.mem_iff).mp he
      rw [List.mem_append] at hmem'
      rcases hmem' with hmem' | hmem'
      · obtain ⟨i, _, rfl⟩ := List.mem_map.mp hmem'
        rw [List.lookup_append]
        show ((r._nodes.lookup node.id).or _).isSome = true
        rw [show node.id = nid from rfl, hdup']
        simp [List.lookup_cons]
      · have hsome := hmem e hmem'
        rw [List.lookup_append]
        cases hx : r._nodes.lookup e.2.id with
        | none => rw [hx] at hsome; exact absurd hsome (by simp)
        | some v => simp [hx]

lemma remove_node_absent (r : ConsistentHasher) (nid : String)
    (h : r._nodes.lookup nid = none) : r.remove_node nid = r := by
  unfold ConsistentHasher.remove_node
  rw [if_neg (by simp [h])]

lemma remove_node_present (r : ConsistentHasher) (nid : String)
    (h : (r._nodes.lookup nid).isSome) :
    (r.remove_node nid)._nodes = r._nodes.filter (fun p => p.1 != nid) ∧
    (r.remove_node nid)._ring =
      (r._ring.filter (fun e => e.2.id != nid)).insertionSort (fun a b => a.1 ≤ b.1) ∧
    (r.remove_node nid)._sorted_tokens = (r.remove_node nid)._ring.map (fun e => e.1) ∧
    (r.remove_node nid)._seed = r._seed ∧
    (r.remove_node nid)._vn_per_weight = r._vn_per_weight := by
  unfold ConsistentHasher.remove_node
  rw [if_pos h]
  exact ⟨rfl, rfl, rfl, rfl, rfl⟩

instance : IsTotal (Nat × Node) (fun a b => a.1 ≤ b.1) :=
  ⟨fun a b => Nat.le_total a.1 b.1⟩

instance : IsTrans (Nat × Node) (fun a b => a.1 ≤ b.1) :=
  ⟨fun _ _ _ hab hbc => Nat.le_trans hab hbc⟩

lemma ring_insertionSort_sorted (l : List (Nat × Node)) :
    ((l.insertionSort (fun a b => a.1 ≤ b.1)).map (fun e => e.1)).Sorted (· ≤ ·) := by
  have h : (l.insertionSort (fun a b => a.1 ≤ b.1)).Pairwise
      (fun a b : Nat × Node => a.1 ≤ b.1) := List.sorted_insertionSort _ l
  rw [List.Sorted, List.pairwise_map]
  exact h

lemma countP_filter_ne (l : List (Nat × Node)) (nid other : String)
    (h : other ≠ nid) :
    (l.filter (fun e => e.2.id != nid)).countP (fun e => e.2.id == other) =
      l.countP (fun e => e.2.id == other) := by
  rw [List.countP_filter]
  apply List.countP_congr
  intro e _
  by_cases he : e.2.id = other
  · simp [he, h]
  · simp [he]

lemma wf_remove_node (r : ConsistentHasher) (nid : String) (hwf : r.Wf) :
    (r.remove_node nid).Wf := by
  obtain ⟨hpar, hs, hnd, hcnt, hmem⟩ := hwf
  by_cases h : (r._nodes.lookup nid).isSome
  · obtain ⟨hn, hrg, hst, hsd, hvw⟩ := remove_node_present r nid h
    refine ⟨hst, ?_, ?_, ?_, ?_⟩
    · rw [hst, hrg]
      exact ring_insertionSort_sorted _
    · rw [hn]
      exact hnd.sublist ((List.filter_sublist _).map _)
    · intro p hp
      rw [hn, List.mem_filter] at hp
      obtain ⟨hpmem, hpne⟩ := hp
      obtain ⟨hid, hc⟩ := hcnt p hpmem
      have hpne' : p.1 ≠ nid := by simpa using hpne
      refine ⟨hid, ?_⟩
      rw [hrg, (List.perm_insertionSort _ _).countP_eq, countP_filter_ne _ _ _ hpne', hc]
      exact (vn_count_congr _ r p.2 hvw).symm
    · intro e he
      rw [hrg] at he
      have he' := (List.perm_insertionSort _ _).mem_iff.mp he
      rw [List.mem_filter] at he'
      obtain ⟨hemem, hene⟩ := he'
      have hene' : e.2.id ≠ nid := by simpa using hene
      rw [hn, lookup_filter_ne _ _ _ hene']
      exact hmem e hemem
  · rw [remove_node_absent r nid (Option.not_isSome_iff_eq_none.mp h)]
    exact ⟨hpar, hs, hnd, hcnt, hmem⟩

lemma remove_node_no_entry (r : ConsistentHasher) (nid : String)
    (hmem : ∀ e ∈ r._ring, (r._nodes.lookup e.2.id).isSome) :
    ∀ e ∈ (r.remove_node nid)._ring, e.2.id ≠ nid := by
  intro e he
  by_cases h : (r._nodes.lookup nid).isSome
  · obtain ⟨_, hrg, _, _, _⟩ := remove_node_present r nid h
    rw [hrg] at he
    have he' := (List.perm_insertionSort _ _).mem_iff.mp he
    rw [List.mem_filter] at he'
    simpa using he'.2
  · intro hid
    rw [remove_node_absent r nid (Option.not_isSome_iff_eq_none.mp h)] at he
    exact h (hid ▸ hmem e he)

lemma walk_loop_mem (ring : List (Nat × Node)) (n replicas : Nat)
    (hn : n = ring.length) :
    ∀ (fuel i : Nat) (out out1 : List String),
      walk_loop ring n replicas fuel i out = some out1 →
      ∀ x ∈ out1, x ∈ out ∨ ∃ e ∈ ring, x = e.2.id := by
  intro fuel
  induction fuel with
  | zero =>
    intro i out out1 h x hx
    unfold walk_loop at h
    by_cases hc : out.length < replicas ∧ 0 < n
    · rw [if_pos hc] at h
      exact absurd h (by simp)
    · rw [if_neg hc] at h
      cases h
      exact Or.inl hx
  | succ f ih =>
    intro i out out1 h x hx
    unfold walk_loop at h
    by_cases hc : out.length < replicas ∧ 0 < n
    · rw [if_pos hc] at h
      have hlt : i % n < ring.length := by
        rw [← hn]
        exact Nat.mod_lt _ hc.2
      rw [List.getElem?_eq_getElem hlt] at h
      have hval : ((Option.map (fun e => e.2.id) (some (ring[i % n]))).getD "")
          = (ring[i % n]).2.id := rfl
      rw [hval] at h
      rcases ih (i + 1) _ out1 h x hx with hx2 | he
      · by_cases hmem : (ring[i % n]).2.id ∈ out
        · rw [if_pos hmem] at hx2
          exact Or.inl hx2
        · rw [if_neg hmem, List.mem_append] at hx2
          rcases hx2 with hx2 | hx2
          · exact Or.inl hx2
          · rw [List.mem_singleton] at hx2
            exact Or.inr ⟨ring[i % n], List.getElem_mem hlt, hx2⟩
      · exact Or.inr he
    · rw [if_neg hc] at h
      cases h
      exact Or.inl hx

lemma probe_loop_mem (ring : List (Nat × Node)) (n replicas fuel : Nat)
    (hn : n = ring.length) :
    ∀ (starts : List Nat) (out out1 : List String),
      probe_loop ring n replicas fuel starts out = some out1 →
      ∀ x ∈ out1, x ∈ out ∨ ∃ e ∈ ring, x = e.2.id := by
  intro starts
  induction starts with
  | nil =>
    intro out out1 h x hx
    cases h
    exact Or.inl hx
  | cons s rest ih =>
    intro out out1 h x hx
    unfold probe_loop at h
    cases hw : walk_loop ring n replicas fuel s out with
    | none =>
      rw [hw] at h
      exact absurd h (by simp)
    | some out2 =>
      rw [hw] at h
      dsimp only at h
      by_cases hrep : replicas ≤ out2.length
      · rw [if_pos hrep] at h
        cases h
        exact walk_loop_mem ring n replicas hn fuel s out out1 hw x hx
      · rw [if_neg hrep] at h
        rcases ih out2 out1 h x hx with hx2 | he
        · exact walk_loop_mem ring n replicas hn fuel s out out2 hw x hx2
        · exact Or.inr he

lemma get_nodes_for_key_mem (H : String → Nat → Nat) (r : ConsistentHasher)
    (key : String) (replicas multiprobe fuel : Nat) (out : List String)
    (hpar : r._sorted_tokens = r._ring.map (fun e => e.1))
    (h : r.get_nodes_for_key H key replicas multiprobe fuel = some out) :
    ∀ x ∈ out, ∃ e ∈ r._ring, x = e.2.id := by
  intro x hx
  unfold ConsistentHasher.get_nodes_for_key at h
  by_cases hemp : r._ring.isEmpty
  · rw [if_pos hemp] at h
    cases h
    simp at hx
  · rw [if_neg hemp] at h
    have hn : r._sorted_tokens.length = r._ring.length := by
      rw [hpar, List.length_map]
    rcases probe_loop_mem r._ring _ replicas fuel hn _ [] out h x hx with h0 | he
    · simp at h0
    · exact he

/-- `get_node` only ever returns the id of some ring entry. -/
lemma get_node_mem (H : String → Nat → Nat) (r : ConsistentHasher)
    (key : String) (nid : String) (h : r.get_node H key = some nid) :
    ∃ e ∈ r._ring, nid = e.2.id := by
  unfold ConsistentHasher.get_node at h
  by_cases hemp : r._ring.isEmpty
  · simp [hemp] at h
  · rw [if_neg hemp] at h
    rcases Option.map_eq_some'.mp h with ⟨e, he, hid⟩
    rcases List.getElem?_eq_some_iff.mp he with ⟨hlt, hget⟩
    exact ⟨e, hget ▸ List.getElem_mem hlt, hid.symm⟩

lemma any_key_iff {α : Type} (m : List (String × α)) (k : String) :
    (m.any (fun p => p.1 == k)) = (m.lookup k).isSome := by
  induction m with
  | nil => simp
  | cons p m ih =>
    obtain ⟨a, v⟩ := p
    rw [List.any_cons, List.lookup_cons]
    by_cases h : a = k
    · subst h
      simp
    · have h1 : (a == k) = false := by simp [h]
      have h2 : (k == a) = false := by simp [Ne.symm h]
      simp [h1, h2, ih]

lemma lookup_map_update {α : Type} (m : List (String × α)) (k k' : String) (v : α) :
    (m.map (fun p => if p.1 == k then (k, v) else p)).lookup k' =
      if k' = k then (m.lookup k).map (fun _ => v) else m.lookup k' := by
  induction m with
  | nil => simp
  | cons p m ih =>
    obtain ⟨a, w⟩ := p
    rw [List.map_cons]
    by_cases h : a = k
    · rw [if_pos (show ((a, w).1 == k) = true from by simp [h])]
      simp only [List.lookup_cons]
      by_cases hk : k' = k
      · rw [if_pos hk,
          show (k' == k) = true from by simp [hk],
          show (k == a) = true from by simp [h]]
        rfl
      · rw [if_neg hk,
          show (k' == k) = false from by simp [hk],
          show (k' == a) = false from by simp [hk, h],
          ih, if_neg hk]
    · rw [if_neg (show ¬ ((a, w).1 == k) = true from by simp [h])]
      simp only [List.lookup_cons]
      by_cases hk : k' = a
      · rw [if_neg (show ¬ k' = k from by simp [hk, h]),
          show (k' == a) = true from by simp [hk]]
      · rw [show (k' == a) = false from by simp [hk]]
        by_cases hkk : k' = k
        · rw [if_pos hkk, ih, if_pos hkk,
            show (k == a) = false from by simp [Ne.symm h]]
        · rw [if_neg hkk, ih, if_neg hkk]

lemma lookup_dict_insert {α : Type} (m : List (String × α)) (k k' : String) (v : α) :
    (dict_insert m k v).lookup k' = if k' = k then some v else m.lookup k' := by
  unfold dict_insert
  by_cases hany : m.any (fun p => p.1 == k)
  · rw [if_pos hany]
    have hsome : (m.lookup k).isSome := by rw [← any_key_iff]; exact hany
    rw [lookup_map_update]
    by_cases hk : k' = k
    · rw [if_pos hk, if_pos hk]
      rcases Option.isSome_iff_exists.mp hsome with ⟨b, hb⟩
      rw [hb]
      rfl
    · rw [if_neg hk, if_neg hk]
  · rw [if_neg hany]
    have hnone : m.lookup k = none := by
      rw [any_key_iff] at hany
      exact Option.not_isSome_iff_eq_none.mp (by simpa using hany)
    rw [List.lookup_append]
    by_cases hk : k' = k
    · subst hk
      rw [hnone, if_pos rfl]
      simp [List.lookup_cons]
    · rw [if_neg hk]
      have hsingle : ([(k, v)] : List (String × α)).lookup k' = none := by
        rw [List.lookup_cons, show (k' == k) = false from by simp [hk]]
        rfl
      rw [hsingle, Option.or_none]

lemma plan_moved_foldl (H : String → Nat → Nat) (rb ra : ConsistentHasher) :
    ∀ (keys : List String) (m : List (String × (Option String × Option String)))
      (k : String),
      (keys.foldl (fun moved k2 =>
        if rb.get_node H k2 ≠ ra.get_node H k2
        then dict_insert moved k2 (rb.get_node H k2, ra.get_node H k2)
        else moved) m).lookup k =
      if k ∈ keys ∧ rb.get_node H k ≠ ra.get_node H k
      then some (rb.get_node H k, ra.get_node H k)
      else m.lookup k := by
  intro keys
  induction keys with
  | nil =>
    intro m k
    simp
  | cons key keys ih =>
    intro m k
    rw [List.foldl_cons, ih]
    by_cases c1 : k ∈ keys ∧ rb.get_node H k ≠ ra.get_node H k
    · rw [if_pos c1, if_pos ⟨List.mem_cons_of_mem key c1.1, c1.2⟩]
    · rw [if_neg c1]
      by_cases hd : rb.get_node H key ≠ ra.get_node H key
      · rw [if_pos hd, lookup_dict_insert]
        by_cases hk : k = key
        · subst hk
          rw [if_pos rfl, if_pos ⟨List.mem_cons_self k keys, hd⟩]
        · rw [if_neg hk, if_neg ?_]
          intro ⟨hmem, hdk⟩
          rcases List.mem_cons.mp hmem with h | h
          · exact hk h
          · exact c1 ⟨h, hdk⟩
      · rw [if_neg hd, if_neg ?_]
        intro ⟨hmem, hdk⟩
        rcases List.mem_cons.mp hmem with h | h
        · exact hd (h ▸ hdk)
        · exact c1 ⟨h, hdk⟩

lemma first_blob_eq_findSome? (hosts : List ArtifactHost) (key : String) :
    first_blob hosts key = hosts.findSome? (fun h => h.get key) := by
  induction hosts with
  | nil => rfl
  | cons h rest ih =>
    unfold first_blob
    rw [List.findSome?_cons]
    cases h.get key <;> simp [ih]

lemma put_get_self (h : ArtifactHost) (key : String) (blob : List Nat) :
    (h.put key blob).get key = some blob := by
  show (dict_insert h.store (h.path_for key) blob).lookup ((h.put key blob).path_for key)
      = some blob
  have hp : (h.put key blob).path_for key = h.path_for key := rfl
  rw [hp, lookup_dict_insert, if_pos rfl]

lemma distribute_fold_keep (key : String) (blob : List Nat) :
    ∀ (ids : List String) (hs : List (String × ArtifactHost)) (nid : String),
      (∃ h, hs.lookup nid = some h ∧ h.get key = some blob) →
      ∃ h2, (ids.foldl (fun hs2 nid2 =>
          match hs2.lookup nid2 with
          | some h => dict_insert hs2 nid2 (h.put key blob)
          | none => hs2) hs).lookup nid = some h2 ∧ h2.get key = some blob := by
  intro ids
  induction ids with
  | nil =>
    intro hs nid h
    exact h
  | cons nid2 ids ih =>
    intro hs nid h
    obtain ⟨h0, hl, hg⟩ := h
    rw [List.foldl_cons]
    apply ih
    by_cases he : nid2 = nid
    · subst he
      rw [hl]
      refine ⟨h0.put key blob, ?_, put_get_self h0 key blob⟩
      rw [lookup_dict_insert, if_pos rfl]
    · cases hx : hs.lookup nid2 with
      | none => exact ⟨h0, hl, hg⟩
      | some hh =>
        refine ⟨h0, ?_, hg⟩
        show (dict_insert hs nid2 (hh.put key blob)).lookup nid = some h0
        rw [lookup_dict_insert, if_neg (Ne.symm he)]
        exact hl

lemma distribute_fold_mem (key : String) (blob : List Nat) :
    ∀ (ids : List String) (hs : List (String × ArtifactHost)) (nid : String)
      (h0 : ArtifactHost),
      nid ∈ ids → hs.lookup nid = some h0 →
      ∃ h2, (ids.foldl (fun hs2 nid2 =>
          match hs2.lookup nid2 with
          | some h => dict_insert hs2 nid2 (h.put key blob)
          | none => hs2) hs).lookup nid = some h2 ∧ h2.get key = some blob := by
  intro ids
  induction ids with
  | nil =>
    intro hs nid h0 hmem
    simp at hmem
  | cons nid2 ids ih =>
    intro hs nid h0 hmem hl
    rw [List.foldl_cons]
    rcases List.mem_cons.mp hmem with he | hmem2
    · subst he
      rw [hl]
      apply distribute_fold_keep
      refine ⟨h0.put key blob, ?_, put_get_self h0 key blob⟩
      rw [lookup_dict_insert, if_pos rfl]
    · by_cases he : nid2 = nid
      · subst he
        rw [hl]
        apply distribute_fold_keep
        refine ⟨h0.put key blob, ?_, put_get_self h0 key blob⟩
        rw [lookup_dict_insert, if_pos rfl]
      · cases hx : hs.lookup nid2 with
        | none => exact ih hs nid h0 hmem2 hl
        | some hh =>
          apply ih _ nid h0 hmem2
          show (dict_insert hs nid2 (hh.put key blob)).lookup nid = some h0
          rw [lookup_dict_insert, if_neg (Ne.symm he)]
          exact hl

/-- A tiny, fully computable stand-in for the abstract hash, used to build
concrete example rings in the witnesses below. -/
def hash_demo (s : String) (seed : Nat) : Nat :=
  s.length * 7 + seed

/-- A one-node ring (one virtual node): the smallest state on which
`get_nodes_for_key` is asked for more replicas than there are nodes. -/
def divergence_ring : ConsistentHasher :=
  ((ConsistentHasher.init 1 0).add_node hash_demo "a" 1 none).2

lemma walk_loop_stuck (ring : List (Nat × Node)) (n replicas : Nat)
    (out : List String) (hn : 0 < n) (hlen : out.length < replicas)
    (hmem : ∀ i : Nat, (((ring[i % n]?).map (fun e => e.2.id)).getD "") ∈ out) :
    ∀ (fuel i : Nat), walk_loop ring n replicas fuel i out = none := by
  intro fuel
  induction fuel with
  | zero =>
    intro i
    unfold walk_loop
    rw [if_pos ⟨hlen, hn⟩]
  | succ f ih =>
    intro i
    unfold walk_loop
    rw [if_pos ⟨hlen, hn⟩]
    show walk_loop ring n replicas f (i + 1)
        (if ((ring[i % n]?).map (fun e => e.2.id)).getD "" ∈ out then out
         else out ++ [((ring[i % n]?).map (fun e => e.2.id)).getD ""]) = none
    rw [if_pos (hmem i)]
    exact ih (i + 1)

lemma get_node_congr (H : String → Nat → Nat) (r1 r2 : ConsistentHasher)
    (hseed : r1._seed = r2._seed)
    (hst : r1._sorted_tokens = r2._sorted_tokens)
    (hdump : r1.dump_tokens = r2.dump_tokens) (k : String) :
    r1.get_node H k = r2.get_node H k := by
  have hmap : ∀ (r : ConsistentHasher) (i : Nat),
      (r._ring[i]?).map (fun e => e.2.id) = (r.dump_tokens[i]?).map (fun d => d.2) := by
    intro r i
    unfold ConsistentHasher.dump_tokens
    rw [List.getElem?_map]
    cases r._ring[i]? <;> rfl
  have hlen : r1._ring.length = r2._ring.length := by
    have h := congrArg List.length hdump
    simpa [ConsistentHasher.dump_tokens] using h
  unfold ConsistentHasher.get_node
  by_cases h1 : r1._ring.isEmpty
  · have h2 : r2._ring.isEmpty = true := by
      rw [List.isEmpty_iff_length_eq_zero] at h1 ⊢
      rw [← hlen]
      exact h1
    rw [if_pos h1, if_pos h2]
  · have h2 : ¬ (r2._ring.isEmpty = true) := by
      rw [List.isEmpty_iff_length_eq_zero] at h1 ⊢
      rw [← hlen]
      exact h1
    rw [if_neg h1, if_neg h2]
    rw [hmap r1, hmap r2, hseed, hst, hdump]

/-! ### Example instances used by the witnesses -/

/-- A small three-node ring (6 keys are queried against it in the source's
own tests). -/
def demo_ring : ConsistentHasher :=
  build_ring hash_demo 2 0 [("node-A", 1), ("node-B", 2), ("node-C", 1)]

/-- A one-host artifact store whose single host already holds one blob. -/
def demo_host : ArtifactHost :=
  { host_id := "h1", base_dir := "/tmp/h1"
    store := [("/tmp/h1/art.bin", [1, 2, 3])] }

/-- An artifact distributor over a one-node ring owning `demo_host`. -/
def demo_dist : ArtifactDistributor :=
  { ring := ((ConsistentHasher.init 1 0).add_node hash_demo "h1" 1 none).2
    replication := 1
    _hosts := [("h1", demo_host)] }

/-! ### The claims -/

/-- **C1.** On every ring satisfying the ring invariants, `get_node(key)`
returns `none` exactly when the ring is empty; otherwise it returns the node
id of the ring entry at index (strict upper bound of `hash_key(key, seed)`
in the sorted token list) modulo the ring length — that is, the owner of the
first token strictly greater than the key's hash, wrapping around. -/
theorem claim_C1 (H : String → Nat → Nat) (r : ConsistentHasher) (key : String)
    (hwf : r.Wf) :
    (r.get_node H key = none ↔ r._ring = []) ∧
    r.get_node H key =
      (r._ring[bisect_right r._sorted_tokens (H key r._seed) % r._ring.length]?).map
        (fun e => e.2.id) ∧
    r.get_node H key = first_token_above H r key := by
  obtain ⟨hpar, hs, _, _, _⟩ := hwf
  have hmain := get_node_eq_first_token_above H r key hpar
  refine ⟨⟨?_, ?_⟩, ?_, hmain⟩
  · intro hnone
    by_contra hne
    rw [hmain] at hnone
    unfold first_token_above at hnone
    cases hf : r._ring.find? (fun e => H key r._seed < e.1) with
    | some e =>
      rw [hf] at hnone
      exact absurd hnone (by simp)
    | none =>
      rw [hf] at hnone
      cases hr : r._ring with
      | nil => exact hne hr
      | cons e t =>
        rw [hr] at hnone
        simp at hnone
  · intro he
    simp [ConsistentHasher.get_node, he]
  · by_cases hemp : r._ring.isEmpty
    · have he : r._ring = [] := List.isEmpty_iff.mp hemp
      simp [ConsistentHasher.get_node, hemp, he]
    · have hlen : r._sorted_tokens.length = r._ring.length := by
        rw [hpar, List.length_map]
      unfold ConsistentHasher.get_node
      rw [if_neg hemp, hlen]

/-- Witness for C1 at a concrete three-node ring and key. -/
theorem claim_C1_witness :
    demo_ring.Wf ∧
    ((demo_ring.get_node hash_demo "k1" = none ↔ demo_ring._ring = []) ∧
     demo_ring.get_node hash_demo "k1" =
       (demo_ring._ring[bisect_right demo_ring._sorted_tokens
           (hash_demo "k1" demo_ring._seed) % demo_ring._ring.length]?).map
         (fun e => e.2.id) ∧
     demo_ring.get_node hash_demo "k1" = first_token_above hash_demo demo_ring "k1") :=
  ⟨by decide, claim_C1 hash_demo demo_ring "k1" (by decide)⟩

/-- **C2.** The claim asserts `get_nodes_for_key` always terminates, in
particular returning fewer than `replicas` ids when fewer distinct nodes
exist.  The code diverges instead: on a one-node ring, `replicas = 2`,
`multiprobe = 1`, the inner `while` loop never exits once the single node id
has been collected — the modelled computation is `none` at every fuel. -/
theorem claim_C2_divergence :
    ∀ fuel : Nat,
      divergence_ring.get_nodes_for_key hash_demo "k" 2 1 fuel = none := by
  intro fuel
  have hre : divergence_ring.get_nodes_for_key hash_demo "k" 2 1 fuel =
      probe_loop divergence_ring._ring 1 2 fuel [0] [] := rfl
  rw [hre]
  have hwalk : ∀ f : Nat, walk_loop divergence_ring._ring 1 2 f 0 [] = none := by
    intro f
    cases f with
    | zero => rfl
    | succ f2 =>
      have hstep : walk_loop divergence_ring._ring 1 2 (f2 + 1) 0 [] =
          walk_loop divergence_ring._ring 1 2 f2 1 ["a"] := rfl
      rw [hstep]
      apply walk_loop_stuck
      · decide
      · decide
      · intro i
        rw [Nat.mod_one]
        decide
  unfold probe_loop
  rw [hwalk fuel]

/-- **C3.** A key `k` is in `plan_moved(K, R1, R2)` iff it is in `K` and the
two owners differ (`Option` inequality, absence its own value), and the plan
then maps it to the pair of owners. -/
theorem claim_C3 (H : String → Nat → Nat) (keys : List String)
    (rb ra : ConsistentHasher) (k : String) :
    (RebalancePlanner.plan_moved H keys rb ra).lookup k =
      (if k ∈ keys ∧ rb.get_node H k ≠ ra.get_node H k
       then some (rb.get_node H k, ra.get_node H k)
       else none) := by
  have h := plan_moved_foldl H rb ra keys [] k
  exact h

/-- **C4.** `add_node` errors iff the id is already present, and in the
error case the ring state is completely unchanged (the duplicate check
precedes every mutation). -/
theorem claim_C4 (H : String → Nat → Nat) (r : ConsistentHasher)
    (node_id : String) (weight : Int) (zone : Option String) :
    ((r.add_node H node_id weight zone).1.isSome ↔
      (r._nodes.lookup node_id).isSome) ∧
    ((r._nodes.lookup node_id).isSome →
      (r.add_node H node_id weight zone).2 = r) := by
  by_cases h : (r._nodes.lookup node_id).isSome
  · have he : r.add_node H node_id weight zone =
        (some ("Node " ++ node_id ++ " already exists"), r) := by
      unfold ConsistentHasher.add_node
      rw [if_pos h]
    rw [he]
    exact ⟨by simp [h], fun _ => rfl⟩
  · have he : (r.add_node H node_id weight zone).1 = none := by
      unfold ConsistentHasher.add_node
      rw [if_neg h]
    refine ⟨by simp [he, h], fun hc => absurd hc h⟩

/-- Witness for C4: adding `node-A` twice errors and leaves the ring as it
was. -/
theorem claim_C4_witness :
    (demo_ring.add_node hash_demo "node-A" 1 none).1.isSome = true ∧
    (demo_ring.add_node hash_demo "node-A" 1 none).2 = demo_ring := by
  have h := claim_C4 hash_demo demo_ring "node-A" 1 none
  exact ⟨h.1.mpr (by decide), h.2 (by decide)⟩

/-- **C5.** On the data model, `clone` is the identity on the ring value:
the clone's lookups equal the original's lookups at clone time, and
mutating the original (`apply_ops`) produces a new value while the clone —
a fully independent copy — is untouched.  (The source method as written
additionally deep-copies `self._lock`, a `threading.RLock`, which
`copy.deepcopy` cannot pickle, so the call raises `TypeError` at runtime;
the theorem records the intended semantics on the lock-erased model.) -/
theorem claim_C5_model (H : String → Nat → Nat) (r : ConsistentHasher)
    (ops : List RingOp) (k : String) :
    r.clone.get_node H k = r.get_node H k ∧
    (apply_ops H r ops).clone = apply_ops H r ops :=
  ⟨rfl, rfl⟩

/-- **C6.** Two rings built with the same seed and `virtual_nodes_per_weight`
by the same ordered `add_node` sequence have identical `(token, node_id)`
layouts, and `get_node` then agrees on them for every key (lookups depend
only on seed, the token list and the token/id layout). -/
theorem claim_C6 (H : String → Nat → Nat) (v s : Nat) (ops : List (String × Int))
    (r1 r2 : ConsistentHasher)
    (h1 : r1 = build_ring H v s ops) (h2 : r2 = build_ring H v s ops) :
    r1.dump_tokens = r2.dump_tokens ∧ ∀ k, r1.get_node H k = r2.get_node H k := by
  subst h1
  subst h2
  exact ⟨rfl, fun k => get_node_congr H _ _ rfl rfl rfl k⟩

/-- Witness for C6 at a concrete two-node build sequence. -/
theorem claim_C6_witness :
    (build_ring hash_demo 2 42 [("node-A", 1), ("node-B", 2)]).dump_tokens =
      (build_ring hash_demo 2 42 [("node-A", 1), ("node-B", 2)]).dump_tokens ∧
    ∀ k, (build_ring hash_demo 2 42 [("node-A", 1), ("node-B", 2)]).get_node hash_demo k =
      (build_ring hash_demo 2 42 [("node-A", 1), ("node-B", 2)]).get_node hash_demo k :=
  claim_C6 hash_demo 2 42 [("node-A", 1), ("node-B", 2)] _ _ rfl rfl

/-- **C7.** The ring invariants hold initially and are preserved by
`add_node` (both outcomes) and `remove_node`; the read-only operations do
not touch the state at all in the functional model. -/
theorem claim_C7 (H : String → Nat → Nat) (v s : Nat) (r : ConsistentHasher)
    (node_id : String) (weight : Int) (zone : Option String) :
    (ConsistentHasher.init v s).Wf ∧
    (r.Wf → (r.add_node H node_id weight zone).2.Wf) ∧
    (r.Wf → (r.remove_node node_id).Wf) :=
  ⟨wf_init v s, wf_add_node H r node_id weight zone, wf_remove_node r node_id⟩

/-- Witness for C7: the demo ring is well-formed and stays so across an add
and a remove. -/
theorem claim_C7_witness :
    (ConsistentHasher.init 2 0).Wf ∧
    (demo_ring.add_node hash_demo "node-D" 1 none).2.Wf ∧
    (demo_ring.remove_node "node-B").Wf :=
  ⟨(claim_C7 hash_demo 2 0 demo_ring "node-D" 1 none).1,
   (claim_C7 hash_demo 2 0 demo_ring "node-D" 1 none).2.1 (by decide),
   (claim_C7 hash_demo 2 0 demo_ring "node-B" 1 none).2.2 (by decide)⟩

/-- **C8.** `remove_node` is a silent no-op on an unknown id; on a known id
it removes the node from the id-map and all of its tokens from both sorted
structures (which remain parallel and sorted), so that no subsequent
`get_node` or `get_nodes_for_key` on the resulting ring ever returns the
id. -/
theorem claim_C8 (H : String → Nat → Nat) (r : ConsistentHasher) (nid : String) :
    (r._nodes.lookup nid = none → r.remove_node nid = r) ∧
    (r.Wf →
      ((r.remove_node nid)._nodes.lookup nid = none ∧
       (∀ e ∈ (r.remove_node nid)._ring, e.2.id ≠ nid) ∧
       (r.remove_node nid)._sorted_tokens =
         (r.remove_node nid)._ring.map (fun e => e.1) ∧
       (r.remove_node nid)._sorted_tokens.Sorted (· ≤ ·) ∧
       (∀ k, (r.remove_node nid).get_node H k ≠ some nid) ∧
       (∀ (k : String) (reps mp fuel : Nat) (out : List String),
         (r.remove_node nid).get_nodes_for_key H k reps mp fuel = some out →
         nid ∉ out))) := by
  constructor
  · exact remove_node_absent r nid
  · intro hwf
    obtain ⟨hpar2, hs2, _, _, _⟩ := wf_remove_node r nid hwf
    have hnoe := remove_node_no_entry r nid hwf.2.2.2.2
    refine ⟨?_, hnoe, hpar2, hs2, ?_, ?_⟩
    · by_cases h : (r._nodes.lookup nid).isSome
      · obtain ⟨hn, _, _, _, _⟩ := remove_node_present r nid h
        rw [hn]
        exact lookup_filter_self _ _
      · rw [remove_node_absent r nid (Option.not_isSome_iff_eq_none.mp h)]
        exact Option.not_isSome_iff_eq_none.mp h
    · intro k hc
      rcases get_node_mem H _ k nid hc with ⟨e, he, hid⟩
      exact hnoe e he hid.symm
    · intro k reps mp fuel out hout hmem
      rcases get_nodes_for_key_mem H _ k reps mp fuel out hpar2 hout nid hmem
        with ⟨e, he, hid⟩
      exact hnoe e he hid.symm

/-- Witness for C8: removing `node-B` from the demo ring scrubs it from the
id-map and from every owner lookup. -/
theorem claim_C8_witness :
    (demo_ring.remove_node "node-B")._nodes.lookup "node-B" = none ∧
    ∀ k, (demo_ring.remove_node "node-B").get_node hash_demo k ≠ some "node-B" := by
  have h := (claim_C8 hash_demo demo_ring "node-B").2 (by decide)
  exact ⟨h.1, h.2.2.2.2.1⟩

/-- **C9.** `ArtifactRebalancer.execute` processes each planned key by
reading it from the old placement's hosts in order (first non-null `get`
wins, via `findSome?`), skips without error a key whose blob is absent from
every old host, and otherwise hands the blob to the distributor's
(spec-modelled) `distribute`, which writes it to every host of the current
placement. -/
theorem claim_C9 (H : String → Nat → Nat) (d : ArtifactDistributor)
    (rb : ConsistentHasher) (key : String)
    (mv : Option String × Option String)
    (rest : List (String × (Option String × Option String))) (fuel : Nat) :
    (ArtifactRebalancer.execute H d [] rb fuel = some d) ∧
    (ArtifactRebalancer.execute H d ((key, mv) :: rest) rb fuel =
      match d.placement_with_ring H key rb fuel with
      | none => none
      | some old_hosts =>
        match old_hosts.findSome? (fun h => h.get key) with
        | none => ArtifactRebalancer.execute H d rest rb fuel
        | some blob =>
          (d.distribute H key blob fuel).bind
            (fun d2 => ArtifactRebalancer.execute H d2 rest rb fuel)) ∧
    (∀ (blob : List Nat) (d2 : ArtifactDistributor) (ids : List String)
       (nid : String) (h0 : ArtifactHost),
      d.distribute H key blob fuel = some d2 →
      d.ring.get_nodes_for_key H key d.replication 3 fuel = some ids →
      nid ∈ ids → d._hosts.lookup nid = some h0 →
      ∃ h2, d2._hosts.lookup nid = some h2 ∧ h2.get key = some blob) := by
  refine ⟨rfl, ?_, ?_⟩
  · have hunf : ArtifactRebalancer.execute H d ((key, mv) :: rest) rb fuel =
        (match d.placement_with_ring H key rb fuel with
         | none => none
         | some old_hosts =>
           match first_blob old_hosts key with
           | none => ArtifactRebalancer.execute H d rest rb fuel
           | some blob =>
             match d.distribute H key blob fuel with
             | none => none
             | some d2 => ArtifactRebalancer.execute H d2 rest rb fuel) := rfl
    rw [hunf]
    cases d.placement_with_ring H key rb fuel with
    | none => rfl
    | some old_hosts =>
      show (match first_blob old_hosts key with
            | none => ArtifactRebalancer.execute H d rest rb fuel
            | some blob =>
              match d.distribute H key blob fuel with
              | none => none
              | some d2 => ArtifactRebalancer.execute H d2 rest rb fuel) =
          (match old_hosts.findSome? (fun h => h.get key) with
            | none => ArtifactRebalancer.execute H d rest rb fuel
            | some blob =>
              (d.distribute H key blob fuel).bind
                (fun d2 => ArtifactRebalancer.execute H d2 rest rb fuel))
      rw [← first_blob_eq_findSome?]
      cases first_blob old_hosts key with
      | none => rfl
      | some blob =>
        show (match d.distribute H key blob fuel with
              | none => none
              | some d2 => ArtifactRebalancer.execute H d2 rest rb fuel) =
            (d.distribute H key blob fuel).bind
              (fun d2 => ArtifactRebalancer.execute H d2 rest rb fuel)
        cases d.distribute H key blob fuel with
        | none => rfl
        | some d2 => rfl
  · intro blob d2 ids nid h0 hdist hids hmem hl
    unfold ArtifactDistributor.distribute at hdist
    rw [hids] at hdist
    have hd2 := Option.some.inj hdist
    rw [← hd2]
    exact distribute_fold_mem key blob ids d._hosts nid h0 hmem hl

/-- Witness for C9: distributing a blob on the one-host store makes the
placed host hold it. -/
theorem claim_C9_witness :
    ∃ d2, demo_dist.distribute hash_demo "art" [9] 5 = some d2 ∧
      ∃ h2, d2._hosts.lookup "h1" = some h2 ∧ h2.get "art" = some [9] := by
  cases hdist : demo_dist.distribute hash_demo "art" [9] 5 with
  | none => exact absurd hdist (by decide)
  | some d2 =>
    refine ⟨d2, rfl, ?_⟩
    exact (claim_C9 hash_demo demo_dist demo_ring "art" (none, none) [] 5).2.2
      [9] d2 ["h1"] "h1" demo_host hdist (by decide) (by decide) (by decide)

/-- **C10.** `add_node` does not validate the weight: with a fresh id and
`weight ≤ 0` it succeeds, stores the node record with the given non-positive
weight unchanged, and inserts exactly `virtual_nodes_per_weight` tokens (the
clamp `max(1, weight)` applies only to the token count). -/
theorem claim_C10 (H : String → Nat → Nat) (r : ConsistentHasher)
    (node_id : String) (weight : Int) (zone : Option String)
    (hw : weight ≤ 0) (hfresh : r._nodes.lookup node_id = none) (hwf : r.Wf) :
    (r.add_node H node_id weight zone).1 = none ∧
    (r.add_node H node_id weight zone).2._nodes =
      r._nodes ++ [(node_id,
        { id := node_id, weight := weight, zone := zone, labels := none })] ∧
    (r.add_node H node_id weight zone).2._ring.length =
      r._ring.length + r._vn_per_weight ∧
    (r.add_node H node_id weight zone).2._ring.countP
      (fun e => e.2.id == node_id) = r._vn_per_weight := by
  obtain ⟨hpar, hs, hnd, hcnt, hmem⟩ := hwf
  obtain ⟨e1, e2, e3, e4, e5, e6, e7⟩ :=
    add_node_success H r node_id weight zone hfresh hpar hs
  have hvn : r.vn_count
      { id := node_id, weight := weight, zone := zone, labels := none } =
      r._vn_per_weight := by
    unfold ConsistentHasher.vn_count
    rw [max_eq_left (by omega : weight ≤ 1)]
    simp
  have hzero : r._ring.countP (fun e => e.2.id == node_id) = 0 := by
    rw [List.countP_eq_zero]
    intro e he hc
    have hsome := hmem e he
    rw [show e.2.id = node_id by simpa using hc, hfresh] at hsome
    exact Bool.false_ne_true hsome
  refine ⟨e1, e4, ?_, ?_⟩
  · have hln := e7.length_eq
    rw [List.length_append, List.length_map, List.length_range, hvn] at hln
    omega
  · rw [e7.countP_eq, List.countP_append, count_tokens_map, if_pos rfl,
      List.length_range, hvn, hzero]
    omega

/-- Witness for C10: adding weight `-3` to the demo ring succeeds with
exactly `_vn_per_weight` tokens for the new node. -/
theorem claim_C10_witness :
    (demo_ring.add_node hash_demo "node-Z" (-3) none).1 = none ∧
    (demo_ring.add_node hash_demo "node-Z" (-3) none).2._ring.countP
      (fun e => e.2.id == "node-Z") = demo_ring._vn_per_weight := by
  have h := claim_C10 hash_demo demo_ring "node-Z" (-3) none
    (by decide) (by decide) (by decide)
  exact ⟨h.1, h.2.2.2⟩
